import Mathlib

/-!
Shallow embedding of the curve-interpolation core of `src/scene/SvgCurve.js`
(protovis).  Points carry `left`/`top` coordinates as in the source; the SVG
path strings produced by the source ("M x,y", "C ...", "S ...", "Q ...") are
modelled as lists of tagged commands carrying the same coordinates, and the
string concatenation of the source becomes list append.  The empty string
result of the guard branches is modelled as the empty list.  JavaScript
numbers are modelled as real numbers; `Math.sqrt` is `Real.sqrt`.
-/

set_option maxHeartbeats 1000000

noncomputable section

/-- A 2-D point with the source's field names (`left` = x, `top` = y). -/
structure Pt where
  left : ℝ
  top : ℝ

/-- A 2-D vector `{x, y}`, used for weighted points and tangents. -/
structure Vec where
  x : ℝ
  y : ℝ

/-- The kind of a drawing command, for structural statements. -/
inductive CmdKind
  | move
  | cubic
  | smooth
  | quad
deriving DecidableEq, Repr

/-- One SVG path command, carrying exactly the coordinates that the source
serializes: `M x,y`, `C c1x,c1y,c2x,c2y,x,y`, `S c2x,c2y,x,y`, `Q cx,cy,x,y`. -/
inductive Cmd
  | moveTo (x y : ℝ)
  | cubicTo (c1x c1y c2x c2y x y : ℝ)
  | smoothCubicTo (c2x c2y x y : ℝ)
  | quadTo (cx cy x y : ℝ)

/-- The kind tag of a command. -/
def Cmd.kind : Cmd → CmdKind
  | .moveTo _ _ => .move
  | .cubicTo _ _ _ _ _ _ => .cubic
  | .smoothCubicTo _ _ _ _ => .smooth
  | .quadTo _ _ _ _ => .quad

/-- `points[i]` of the source.  Out-of-range access (which in JavaScript
yields `undefined` and propagates `NaN`) is given the junk value `(0, 0)`;
every theorem below only exercises in-range indices. -/
def getP (points : List Pt) (i : ℕ) : Pt := points.getD i ⟨0, 0⟩

/-- `tangents[i]` of the source, with the same junk-default convention. -/
def getT (tangents : List Vec) (i : ℕ) : Vec := tangents.getD i ⟨0, 0⟩

/-- The fixed matrix transforming basis (b-spline) control points to bezier
control points (`basis` in `pathBasis`). -/
def basis : List (List ℝ) :=
  [[1/6, 2/3, 1/6, 0],
   [0, 2/3, 1/3, 0],
   [0, 1/3, 2/3, 0],
   [0, 1/6, 2/3, 1/6]]

/-- `weight(w, p0, p1, p2, p3)`: the point that is the weighted sum of the
four control points, x and y components independently. -/
def weight (w : List ℝ) (p0 p1 p2 p3 : Pt) : Vec :=
  ⟨w.getD 0 0 * p0.left + w.getD 1 0 * p1.left + w.getD 2 0 * p2.left
     + w.getD 3 0 * p3.left,
   w.getD 0 0 * p0.top + w.getD 1 0 * p1.top + w.getD 2 0 * p2.top
     + w.getD 3 0 * p3.top⟩

/-- `pathBasis(p0,p1,p2,p3)` (the `convert` closure): one `C` command built
from rows 1, 2, 3 of the basis matrix. -/
def pathBasis (p0 p1 p2 p3 : Pt) : List Cmd :=
  let b1 := weight (basis.getD 1 []) p0 p1 p2 p3
  let b2 := weight (basis.getD 2 []) p0 p1 p2 p3
  let b3 := weight (basis.getD 3 []) p0 p1 p2 p3
  [Cmd.cubicTo b1.x b1.y b2.x b2.y b3.x b3.y]

/-- `pathBasis.segment(p0,p1,p2,p3)`: a standalone `["M...", "C..."]`
fragment built from rows 0-3 of the basis matrix. -/
def pathBasisSegment (p0 p1 p2 p3 : Pt) : List Cmd :=
  let b0 := weight (basis.getD 0 []) p0 p1 p2 p3
  let b1 := weight (basis.getD 1 []) p0 p1 p2 p3
  let b2 := weight (basis.getD 2 []) p0 p1 p2 p3
  let b3 := weight (basis.getD 3 []) p0 p1 p2 p3
  [Cmd.moveTo b0.x b0.y, Cmd.cubicTo b1.x b1.y b2.x b2.y b3.x b3.y]

/-- The `for (i = from + 2; i <= to; i++)` loop of `curveBasis`: the state is
the sliding window `(p1, p2, p3)`, `i` is the next point index, and the last
argument is the number of remaining iterations.  Returns the emitted
commands and the final window. -/
def curveBasisLoop (points : List Pt) : Pt → Pt → Pt → ℕ → ℕ → List Cmd × (Pt × Pt × Pt)
  | p1, p2, p3, _, 0 => ([], (p1, p2, p3))
  | p1, p2, p3, i, n + 1 =>
    let p4 := getP points i
    let r := curveBasisLoop points p2 p3 p4 (i + 1) n
    (pathBasis p1 p2 p3 p4 ++ r.1, r.2)

/-- `curveBasis(points, from, to)` with an explicit range (the
`from == null` default corresponds to `f = 0`, `t = points.length - 1`,
which gives the same `L` for nonempty input; the guard also catches the
empty-input default).  Returns the continuous path (no leading `M`). -/
def curveBasis (points : List Pt) (f t : ℕ) : List Cmd :=
  let L : ℤ := (t : ℤ) - (f : ℤ) + 1
  if L ≤ 2 then []
  else
    let p0 := getP points f
    let p3 := getP points (f + 1)
    let r := curveBasisLoop points p0 p0 p3 (f + 2) (t - f - 1)
    pathBasis p0 p0 p0 p3 ++ r.1
      ++ pathBasis r.2.1 r.2.2.1 r.2.2.2 r.2.2.2
      ++ pathBasis r.2.2.1 r.2.2.2 r.2.2.2 r.2.2.2

/-- The `for (i = from + 3; i <= to; i++)` loop of `curveBasisSegments`:
pushes one standalone segment per iteration; returns the pushed segments
and the final window `(p1, p2, p3)`. -/
def segLoop (points : List Pt) : Pt → Pt → Pt → ℕ → ℕ → List (List Cmd) × (Pt × Pt × Pt)
  | p1, p2, p3, _, 0 => ([], (p1, p2, p3))
  | p1, p2, p3, i, n + 1 =>
    let p4 := getP points i
    let r := segLoop points p2 p3 p4 (i + 1) n
    (pathBasisSegment p1 p2 p3 p4 :: r.1, r.2)

/-- `curveBasisSegments(points, from, to)`.  The source merges the first two
logical curve segments into the first array entry (`firstPath[1] += ...`,
modelled as appending the extra `C` command to the entry) and the last two
into the final entry.  The `L <= 2` guard returns the source's empty marker
(the empty string), modelled as the empty list. -/
def curveBasisSegments (points : List Pt) (f t : ℕ) : List (List Cmd) :=
  let L : ℤ := (t : ℤ) - (f : ℤ) + 1
  if L ≤ 2 then []
  else
    let p0 := getP points f
    let pA := getP points (f + 1)
    let pB := getP points (f + 2)
    let firstPath := pathBasisSegment p0 p0 p0 pA ++ pathBasis p0 p0 pA pB
    let r := segLoop points p0 pA pB (f + 3) (t - f - 2)
    let q1 := r.2.1
    let q2 := r.2.2.1
    let q3 := r.2.2.2
    (firstPath :: r.1) ++ [pathBasisSegment q1 q2 q3 q3 ++ pathBasis q2 q3 q3 q3]

/-- The `for (i = 2; i < T; i++, pi++)` loop of `curveHermite`: emits one
`S` command per iteration; the state is the current point `p`, current
tangent `tv` and point index `pi`; the last argument is the number of
remaining iterations.  Returns the commands and the final `(p, tv, pi)`. -/
def hermSLoop (points : List Pt) (tangents : List Vec) : ℕ → ℕ → Pt → Vec → ℕ → List Cmd × Pt × Vec × ℕ
  | _, pi, p, tv, 0 => ([], p, tv, pi)
  | i, pi, _, _, n + 1 =>
    let p2 := getP points pi
    let t2 := getT tangents i
    let r := hermSLoop points tangents (i + 1) (pi + 1) p2 t2 n
    (Cmd.smoothCubicTo (p2.left - t2.x) (p2.top - t2.y) p2.left p2.top :: r.1, r.2)

/-- `curveHermite(points, tangents, from, to)`: the continuous-path Hermite
evaluator.  `quad` is the `L !== T` flag of the source; the `T > 1` block
emits the first `C` and then the `S` loop; each `quad` branch contributes
its boundary `Q` command. -/
def curveHermite (points : List Pt) (tangents : List Vec) (f t : ℕ) : List Cmd :=
  let L : ℤ := (t : ℤ) - (f : ℤ) + 1
  let T := tangents.length
  if T < 1 ∨ (L ≠ (T : ℤ) ∧ L ≠ (T : ℤ) + 2) then []
  else
    let quad := L ≠ (T : ℤ)
    let p0 := getP points f
    let p := getP points (f + 1)
    let t0 := getT tangents 0
    let pre : List Cmd :=
      if quad then
        [Cmd.quadTo (p.left - t0.x * 2 / 3) (p.top - t0.y * 2 / 3) p.left p.top]
      else []
    let p0q := if quad then getP points (f + 1) else p0
    let pi := if quad then f + 2 else f + 1
    if 1 < T then
      let t1 := getT tangents 1
      let pC := getP points pi
      let c := Cmd.cubicTo (p0q.left + t0.x) (p0q.top + t0.y)
                 (pC.left - t1.x) (pC.top - t1.y) pC.left pC.top
      let r := hermSLoop points tangents 2 (pi + 1) pC t1 (T - 2)
      let post : List Cmd :=
        if quad then
          let lp := getP points r.2.2.2
          [Cmd.quadTo (r.2.1.left + r.2.2.1.x * 2 / 3) (r.2.1.top + r.2.2.1.y * 2 / 3)
             lp.left lp.top]
        else []
      pre ++ (c :: r.1) ++ post
    else
      let post : List Cmd :=
        if quad then
          let lp := getP points pi
          [Cmd.quadTo (p.left + t0.x * 2 / 3) (p.top + t0.y * 2 / 3) lp.left lp.top]
        else []
      pre ++ post

/-- The `for (i = 1; i < T; i++, pi++)` loop of `curveHermiteSegments`:
pushes one `[M, C]` fragment per iteration.  Returns the fragments and the
final `(p, tv, pi)`. -/
def hermSegLoop (points : List Pt) (tangents : List Vec) : ℕ → ℕ → Pt → Vec → ℕ → List (List Cmd) × Pt × Vec × ℕ
  | _, pi, p, tv, 0 => ([], p, tv, pi)
  | i, pi, p, tv, n + 1 =>
    let pn := getP points pi
    let tn := getT tangents i
    let r := hermSegLoop points tangents (i + 1) (pi + 1) pn tn n
    ([Cmd.moveTo p.left p.top,
      Cmd.cubicTo (p.left + tv.x) (p.top + tv.y) (pn.left - tn.x) (pn.top - tn.y)
        pn.left pn.top] :: r.1,
     r.2)

/-- `curveHermiteSegments(points, tangents, from, to)`: the segment-array
Hermite evaluator. -/
def curveHermiteSegments (points : List Pt) (tangents : List Vec) (f t : ℕ) : List (List Cmd) :=
  let L : ℤ := (t : ℤ) - (f : ℤ) + 1
  let T := tangents.length
  if T < 1 ∨ (L ≠ (T : ℤ) ∧ L ≠ (T : ℤ) + 2) then []
  else
    let quad := L ≠ (T : ℤ)
    let p0 := getP points f
    let t0 := getT tangents 0
    let pQ := if quad then getP points (f + 1) else p0
    let pre : List (List Cmd) :=
      if quad then
        [[Cmd.moveTo p0.left p0.top,
          Cmd.quadTo (pQ.left - t0.x * 2 / 3) (pQ.top - t0.y * 2 / 3) pQ.left pQ.top]]
      else []
    let pi := if quad then f + 2 else f + 1
    let r := hermSegLoop points tangents 1 pi pQ t0 (T - 1)
    let post : List (List Cmd) :=
      if quad then
        let lp := getP points r.2.2.2
        [[Cmd.moveTo r.2.1.left r.2.1.top,
          Cmd.quadTo (r.2.1.left + r.2.2.1.x * 2 / 3) (r.2.1.top + r.2.2.1.y * 2 / 3)
            lp.left lp.top]]
      else []
    pre ++ r.1 ++ post

/-- The `for (i = from + 3; i <= to; i++)` loop of `cardinalTangents`:
pushes one tangent per iteration; the state is `(p0, p1, p2)`.  Returns the
pushed tangents and the final state. -/
def cardTanLoop (points : List Pt) (a : ℝ) : Pt → Pt → Pt → ℕ → ℕ → List Vec × (Pt × Pt × Pt)
  | p0, p1, p2, _, 0 => ([], (p0, p1, p2))
  | p0, p1, p2, i, n + 1 =>
    let pn := getP points i
    let r := cardTanLoop points a p1 p2 pn (i + 1) n
    (⟨a * (p2.left - p0.left), a * (p2.top - p0.top)⟩ :: r.1, r.2)

/-- `cardinalTangents(points, tension, from, to)`: the Catmull-Rom interior
tangents scaled by `a = (1 - tension) / 2`; pushes one final tangent after
the loop. -/
def cardinalTangents (points : List Pt) (tension : ℝ) (f t : ℕ) : List Vec :=
  let a := (1 - tension) / 2
  let p0 := getP points f
  let p1 := getP points (f + 1)
  let p2 := getP points (f + 2)
  let r := cardTanLoop points a p0 p1 p2 (f + 3) (t - f - 2)
  r.1 ++ [⟨a * (r.2.2.2.left - r.2.1.left), a * (r.2.2.2.top - r.2.1.top)⟩]

/-- `curveCardinal(points, tension, from, to)`. -/
def curveCardinal (points : List Pt) (tension : ℝ) (f t : ℕ) : List Cmd :=
  let L : ℤ := (t : ℤ) - (f : ℤ) + 1
  if L ≤ 2 then []
  else curveHermite points (cardinalTangents points tension f t) f t

/-- `curveCardinalSegments(points, tension, from, to)`; the `L <= 2` guard
returns the source's empty marker, modelled as the empty list. -/
def curveCardinalSegments (points : List Pt) (tension : ℝ) (f t : ℕ) : List (List Cmd) :=
  let L : ℤ := (t : ℤ) - (f : ℤ) + 1
  if L ≤ 2 then []
  else curveHermiteSegments points (cardinalTangents points tension f t) f t

open Classical in
/-- The secant slope `d[k]` of `monotoneTangents`: zero when the horizontal
run is absolutely at most `1e-12`, otherwise rise over run (`j = from + k`). -/
def secant (points : List Pt) (f k : ℕ) : ℝ :=
  let den := (getP points (f + k + 1)).left - (getP points (f + k)).left
  if |den| ≤ 1e-12 then 0
  else ((getP points (f + k + 1)).top - (getP points (f + k)).top) / den

/-- The initial tangent slopes `m` of `monotoneTangents` (average of adjacent
secants at interior points, the single adjacent secant at the two ends),
as a map from index `k < L` to the slope. -/
def initM (points : List Pt) (f t : ℕ) (k : ℕ) : ℝ :=
  let L := t - f + 1
  if k = 0 then secant points f 0
  else if k < L - 1 then (secant points f (k - 1) + secant points f k) / 2
  else secant points f (k - 1)

/-- The horizontal extents `dx` of `monotoneTangents` (local point spacing,
averaged at interior points), as a map from index `k < L` to the extent. -/
def initDx (points : List Pt) (f t : ℕ) (k : ℕ) : ℝ :=
  let L := t - f + 1
  if k = 0 then (getP points (f + 1)).left - (getP points f).left
  else if k < L - 1 then ((getP points (f + k + 1)).left - (getP points (f + k - 1)).left) / 2
  else (getP points (f + k)).left - (getP points (f + k - 1)).left

open Classical in
/-- One iteration of step 3 of `monotoneTangents` at index `k`: when
`d[k] == 0`, zero both adjacent tangent slopes `m[k]` and `m[k+1]`. -/
def step3Step (points : List Pt) (f : ℕ) (m : ℕ → ℝ) (k : ℕ) : ℕ → ℝ :=
  if secant points f k = 0 then
    Function.update (Function.update m k 0) (k + 1) 0
  else m

/-- Step 3 of `monotoneTangents`: the loop `for (k = 0; k < L - 1; k++)`
applying `step3Step`. -/
def step3 (points : List Pt) (f t : ℕ) : ℕ → ℝ :=
  (List.range (t - f)).foldl (step3Step points f) (initM points f t)

open Classical in
/-- One iteration of steps 4-5 of `monotoneTangents` at index `k`: skip when
either adjacent slope has magnitude below `1e-5`; otherwise divide both by
the secant and rescale by `3 / sqrt s` when `s > 9`. -/
def step45Step (points : List Pt) (f : ℕ) (m : ℕ → ℝ) (k : ℕ) : ℕ → ℝ :=
  if |m k| < 1e-5 ∨ |m (k + 1)| < 1e-5 then m
  else
    let d := secant points f k
    let ak := m k / d
    let bk := m (k + 1) / d
    let s := ak * ak + bk * bk
    if 9 < s then
      let tk := 3 / Real.sqrt s
      Function.update (Function.update m k (tk * ak * d)) (k + 1) (tk * bk * d)
    else m

/-- The first `n` iterations of steps 4-5 of `monotoneTangents`, starting
from the step-3 slopes. -/
def step45Aux (points : List Pt) (f t n : ℕ) : ℕ → ℝ :=
  (List.range n).foldl (step45Step points f) (step3 points f t)

/-- All `L - 1` iterations of steps 4-5 of `monotoneTangents`. -/
def step45 (points : List Pt) (f t : ℕ) : ℕ → ℝ := step45Aux points f t (t - f)

/-- `monotoneTangents(points, from, to)`: the final conversion of slopes and
extents into tangent vectors, `len = 1 + m[i]^2`,
`tangent = (dx[i]/3/len, m[i]*dx[i]/3/len)`. -/
def monotoneTangents (points : List Pt) (f t : ℕ) : List Vec :=
  let m := step45 points f t
  let dx := initDx points f t
  (List.range (t - f + 1)).map fun i =>
    let len := 1 + m i * m i
    ⟨dx i / 3 / len, m i * dx i / 3 / len⟩

/-- `curveMonotone(points, from, to)`. -/
def curveMonotone (points : List Pt) (f t : ℕ) : List Cmd :=
  let L : ℤ := (t : ℤ) - (f : ℤ) + 1
  if L ≤ 2 then []
  else curveHermite points (monotoneTangents points f t) f t

/-- `curveMonotoneSegments(points, from, to)`; the `L <= 2` guard returns
the source's empty marker, modelled as the empty list. -/
def curveMonotoneSegments (points : List Pt) (f t : ℕ) : List (List Cmd) :=
  let L : ℤ := (t : ℤ) - (f : ℤ) + 1
  if L ≤ 2 then []
  else curveHermiteSegments points (monotoneTangents points f t) f t

/-- The points of the index range `[i, i + n)`, via `getP`. -/
def sliceP (points : List Pt) : ℕ → ℕ → List Pt
  | _, 0 => []
  | i, n + 1 => getP points i :: sliceP points (i + 1) n

/-- The final 3-point window after sliding from `(a, b, c)` across `zs`. -/
def lastThree : Pt → Pt → Pt → List Pt → Pt × Pt × Pt
  | a, b, c, [] => (a, b, c)
  | _, b, c, x :: xs => lastThree b c x xs

/-- The list of consecutive 4-point windows of a list. -/
def windows4 : List Pt → List (Pt × Pt × Pt × Pt)
  | a :: b :: c :: d :: rest => (a, b, c, d) :: windows4 (b :: c :: d :: rest)
  | _ => []
termination_by l => l.length
decreasing_by simp

/-- Reference definition following the spec's words (§4.2): pad the range by
duplicating the first point twice at the start and the last point twice at
the end, slide a 4-point window across the padded sequence, and emit one
basis-to-bezier conversion per window. -/
def basisSplineRef (points : List Pt) (f t : ℕ) : List Cmd :=
  let ps := sliceP points f (t - f + 1)
  let padded := [getP points f, getP points f] ++ ps ++ [getP points t, getP points t]
  (windows4 padded).flatMap fun w => pathBasis w.1 w.2.1 w.2.2.1 w.2.2.2

/-! ## C1: entry count of `curveBasisSegments` on 5 points -/

/-- C1 counterexample: on 5 points (full default range `from = 0`,
`to = 4`), `curveBasisSegments` does not return 3 array entries. -/
theorem curveBasisSegments_five_points_not_three :
    ¬ (curveBasisSegments [⟨0, 0⟩, ⟨1, 1⟩, ⟨2, 0⟩, ⟨3, 1⟩, ⟨4, 0⟩] 0 4).length = 3 := by
  have h4 : (curveBasisSegments [⟨0, 0⟩, ⟨1, 1⟩, ⟨2, 0⟩, ⟨3, 1⟩, ⟨4, 0⟩] 0 4).length = 4 := rfl
  omega

/-- C1 (amended): on every 5-point sequence with the full default range,
`curveBasisSegments` returns exactly 4 array entries: the first two curve
segments merged into the first entry (move plus two chained curve
commands), two single interior entries, and the last two segments merged
into the final entry. -/
theorem curveBasisSegments_five_points_shape (a b c d e : Pt) :
    (curveBasisSegments [a, b, c, d, e] 0 4).length = 4
      ∧ (curveBasisSegments [a, b, c, d, e] 0 4).map (List.map Cmd.kind)
          = [[.move, .cubic, .cubic], [.move, .cubic], [.move, .cubic],
             [.move, .cubic, .cubic]] :=
  ⟨rfl, rfl⟩

/-! ## C2: every driver is empty on ranges of length at most 2 -/

/-- C2: for a range of length `L = to - from + 1 ≤ 2` (which also covers the
empty-input default), each continuous driver returns an empty path and each
segmented driver returns an empty segment array. -/
theorem curve_drivers_empty_of_short (points : List Pt) (tension : ℝ) (f t : ℕ)
    (h : (t : ℤ) - (f : ℤ) + 1 ≤ 2) :
    curveBasis points f t = [] ∧ curveCardinal points tension f t = []
      ∧ curveMonotone points f t = [] ∧ curveBasisSegments points f t = []
      ∧ curveCardinalSegments points tension f t = []
      ∧ curveMonotoneSegments points f t = [] := by
  refine ⟨?_, ?_, ?_, ?_, ?_, ?_⟩ <;>
    simp [curveBasis, curveCardinal, curveMonotone, curveBasisSegments,
      curveCardinalSegments, curveMonotoneSegments, h]

/-- C2 witness: the empty input with the default range. -/
theorem curve_drivers_empty_of_short_witness :
    curveBasis [] 0 0 = [] ∧ curveCardinal [] 0 0 0 = []
      ∧ curveMonotone [] 0 0 = [] ∧ curveBasisSegments [] 0 0 = []
      ∧ curveCardinalSegments [] 0 0 0 = []
      ∧ curveMonotoneSegments [] 0 0 = [] :=
  curve_drivers_empty_of_short [] 0 0 0 (by decide)

/-! ## C4: mismatched tangent counts give empty Hermite results -/

/-- C4: whenever the tangent count `T` is neither `L` nor `L - 2` (with
`L = to - from + 1` the range length), both Hermite evaluators return an
empty result. -/
theorem curveHermite_mismatch_empty (points : List Pt) (tangents : List Vec) (f t : ℕ)
    (h1 : (tangents.length : ℤ) ≠ (t : ℤ) - (f : ℤ) + 1)
    (h2 : (tangents.length : ℤ) ≠ (t : ℤ) - (f : ℤ) + 1 - 2) :
    curveHermite points tangents f t = []
      ∧ curveHermiteSegments points tangents f t = [] := by
  have hg : tangents.length < 1
      ∨ ((t : ℤ) - (f : ℤ) + 1 ≠ (tangents.length : ℤ)
          ∧ (t : ℤ) - (f : ℤ) + 1 ≠ (tangents.length : ℤ) + 2) := by
    omega
  constructor
  · simp only [curveHermite]
    rw [if_pos hg]
  · simp only [curveHermiteSegments]
    rw [if_pos hg]

/-- C4 witness: 3 points in range with 2 tangents (`T = 2`, `L = 3`). -/
theorem curveHermite_mismatch_empty_witness :
    curveHermite [⟨0, 0⟩, ⟨1, 1⟩, ⟨2, 0⟩] [⟨1, 0⟩, ⟨1, 0⟩] 0 2 = []
      ∧ curveHermiteSegments [⟨0, 0⟩, ⟨1, 1⟩, ⟨2, 0⟩] [⟨1, 0⟩, ⟨1, 0⟩] 0 2 = [] :=
  curveHermite_mismatch_empty _ _ 0 2 (by decide) (by decide)

/-! ## C9: the basis matrix rows are affine -/

/-- C9: every row of the basis-to-bezier matrix sums to 1, so `weight`
forms an affine combination: on four equal points it reproduces the
point. -/
theorem basis_rows_affine :
    basis.map List.sum = [1, 1, 1, 1]
      ∧ ∀ w ∈ basis, ∀ p : Pt, weight w p p p p = ⟨p.left, p.top⟩ := by
  constructor
  · simp [basis]
    norm_num
  · intro w hw p
    fin_cases hw <;>
      · simp [weight, Vec.mk.injEq]
        constructor <;> ring

/-- C9 witness: row 0 applied to four copies of a concrete point. -/
theorem basis_rows_affine_witness :
    weight [1/6, 2/3, 1/6, 0] ⟨2, 5⟩ ⟨2, 5⟩ ⟨2, 5⟩ ⟨2, 5⟩ = (⟨2, 5⟩ : Vec) :=
  basis_rows_affine.2 [1/6, 2/3, 1/6, 0] (by simp [basis]) ⟨2, 5⟩

/-! ## C7, C8: cardinal tangents -/

/-- Characterization of the `cardinalTangents` loop: starting from the
window at base index `b`, `n` iterations emit the scaled central
differences at `b, b+1, ..., b+n-1` and leave the window at base `b+n`. -/
lemma cardTanLoop_spec (points : List Pt) (a : ℝ) :
    ∀ n b,
      cardTanLoop points a (getP points b) (getP points (b + 1)) (getP points (b + 2)) (b + 3) n
        = ((List.range' b n).map fun j =>
             (⟨a * ((getP points (j + 2)).left - (getP points j).left),
               a * ((getP points (j + 2)).top - (getP points j).top)⟩ : Vec),
           (getP points (b + n), getP points (b + n + 1), getP points (b + n + 2))) := by
  intro n
  induction n with
  | zero => intro b; simp [cardTanLoop]
  | succ n ih =>
    intro b
    simp only [cardTanLoop]
    have ihb := ih (b + 1)
    have e1 : b + 1 + 1 = b + 2 := by omega
    have e2 : b + 1 + 2 = b + 3 := by omega
    have e3 : b + 1 + 3 = b + 3 + 1 := by omega
    rw [e1, e2, e3] at ihb
    rw [ihb, List.range'_succ]
    have e4 : b + 1 + n = b + (n + 1) := by omega
    rw [e4]
    simp

/-- `cardinalTangents` as a map over the interior window bases. -/
lemma cardinalTangents_eq_map (points : List Pt) (tension : ℝ) (f t : ℕ) (h : f + 2 ≤ t) :
    cardinalTangents points tension f t
      = (List.range' f (t - f - 1)).map fun j =>
          (⟨(1 - tension) / 2 * ((getP points (j + 2)).left - (getP points j).left),
            (1 - tension) / 2 * ((getP points (j + 2)).top - (getP points j).top)⟩ : Vec) := by
  simp only [cardinalTangents]
  rw [cardTanLoop_spec points ((1 - tension) / 2) (t - f - 2) f]
  have hn : t - f - 1 = (t - f - 2) + 1 := by omega
  rw [hn, List.range'_1_concat, List.map_append]
  simp

/-- C7: for a range of length `L ≥ 3`, `cardinalTangents` returns exactly
`L - 2` tangents, and the `j`-th one is `a * (p[f+j+2] - p[f+j])`
componentwise with `a = (1 - tension) / 2` (the tangent for the `j`-th
interior point, relative indices `j + 1` interior). -/
theorem cardinalTangents_spec (points : List Pt) (tension : ℝ) (f t : ℕ) (h : f + 2 ≤ t) :
    (cardinalTangents points tension f t).length = (t - f + 1) - 2
      ∧ ∀ j, j ≤ t - f - 2 →
          (cardinalTangents points tension f t).getD j ⟨0, 0⟩
            = ⟨(1 - tension) / 2 * ((getP points (f + j + 2)).left - (getP points (f + j)).left),
               (1 - tension) / 2 * ((getP points (f + j + 2)).top - (getP points (f + j)).top)⟩ := by
  rw [cardinalTangents_eq_map points tension f t h]
  constructor
  · simp [List.length_range']
  · intro j hj
    have hjlt : j < t - f - 1 := by omega
    simp [List.getD_eq_getElem?_getD, List.getElem?_range', hjlt]

/-- C7 witness: three concrete points with tension `1/2`. -/
theorem cardinalTangents_spec_witness :
    (cardinalTangents [⟨0, 0⟩, ⟨1, 1⟩, ⟨2, 0⟩] (1/2) 0 2).length = 1
      ∧ ∀ j, j ≤ 0 →
          (cardinalTangents [⟨0, 0⟩, ⟨1, 1⟩, ⟨2, 0⟩] (1/2) 0 2).getD j ⟨0, 0⟩
            = ⟨(1 - 1/2) / 2 * ((getP [⟨0, 0⟩, ⟨1, 1⟩, ⟨2, 0⟩] (0 + j + 2)).left
                  - (getP [⟨0, 0⟩, ⟨1, 1⟩, ⟨2, 0⟩] (0 + j)).left),
               (1 - 1/2) / 2 * ((getP [⟨0, 0⟩, ⟨1, 1⟩, ⟨2, 0⟩] (0 + j + 2)).top
                  - (getP [⟨0, 0⟩, ⟨1, 1⟩, ⟨2, 0⟩] (0 + j)).top)⟩ :=
  cardinalTangents_spec [⟨0, 0⟩, ⟨1, 1⟩, ⟨2, 0⟩] (1/2) 0 2 (by decide)

/-- C8: with `tension = 1` (so `a = 0`), `cardinalTangents` returns `L - 2`
copies of the zero vector. -/
theorem cardinalTangents_tension_one (points : List Pt) (f t : ℕ) (h : f + 2 ≤ t) :
    cardinalTangents points 1 f t = List.replicate ((t - f + 1) - 2) (⟨0, 0⟩ : Vec) := by
  rw [cardinalTangents_eq_map points 1 f t h]
  refine List.eq_replicate_iff.2 ⟨?_, ?_⟩
  · simp [List.length_range']
  · intro v hv
    simp only [List.mem_map] at hv
    obtain ⟨j, _, rfl⟩ := hv
    simp [Vec.mk.injEq]

/-- C8 witness: three concrete points with tension 1. -/
theorem cardinalTangents_tension_one_witness :
    cardinalTangents [⟨0, 0⟩, ⟨1, 1⟩, ⟨2, 0⟩] 1 0 2 = List.replicate 1 (⟨0, 0⟩ : Vec) :=
  cardinalTangents_tension_one [⟨0, 0⟩, ⟨1, 1⟩, ⟨2, 0⟩] 0 2 (by decide)

/-! ## C6: command shapes of the Hermite evaluator -/

/-- The `S` loop of `curveHermite` emits exactly `n` smooth-cubic
commands. -/
lemma hermSLoop_kinds (points : List Pt) (tangents : List Vec) :
    ∀ n i pi p tv,
      ((hermSLoop points tangents i pi p tv n).1).map Cmd.kind
        = List.replicate n CmdKind.smooth := by
  intro n
  induction n with
  | zero => intro i pi p tv; simp [hermSLoop]
  | succ n ih =>
    intro i pi p tv
    simp [hermSLoop, ih, List.replicate_succ, Cmd.kind]

/-- C6: with `T = L ≥ 3` tangents, `curveHermite` emits one `CubicTo`
followed only by `SmoothCubicTo` commands (so the second transition is a
smooth cubic); with `T = L - 2 ≥ 1`, the first and last commands are
`QuadTo` and every command between them is cubic (a `CubicTo` followed by
`SmoothCubicTo`s). -/
theorem curveHermite_shape (points : List Pt) (tangents : List Vec) (f t : ℕ) :
    ((tangents.length : ℤ) = (t : ℤ) - (f : ℤ) + 1 → 3 ≤ (t : ℤ) - (f : ℤ) + 1 →
      (curveHermite points tangents f t).map Cmd.kind
        = CmdKind.cubic :: List.replicate (tangents.length - 2) CmdKind.smooth)
    ∧ ((tangents.length : ℤ) = (t : ℤ) - (f : ℤ) + 1 - 2 → 1 ≤ tangents.length →
      (curveHermite points tangents f t).map Cmd.kind
        = CmdKind.quad
            :: ((if 2 ≤ tangents.length then
                  CmdKind.cubic :: List.replicate (tangents.length - 2) CmdKind.smooth
                else []) ++ [CmdKind.quad])) := by
  constructor
  · intro hT hL
    have hg : ¬ (tangents.length < 1
        ∨ ((t : ℤ) - (f : ℤ) + 1 ≠ (tangents.length : ℤ)
            ∧ (t : ℤ) - (f : ℤ) + 1 ≠ (tangents.length : ℤ) + 2)) := by omega
    have hq : ¬ ((t : ℤ) - (f : ℤ) + 1 ≠ (tangents.length : ℤ)) := by omega
    have h1T : 1 < tangents.length := by omega
    simp only [curveHermite, if_neg hg, if_neg hq, if_pos h1T]
    simp [hermSLoop_kinds, Cmd.kind]
  · intro hT hTpos
    have hg : ¬ (tangents.length < 1
        ∨ ((t : ℤ) - (f : ℤ) + 1 ≠ (tangents.length : ℤ)
            ∧ (t : ℤ) - (f : ℤ) + 1 ≠ (tangents.length : ℤ) + 2)) := by omega
    have hq : (t : ℤ) - (f : ℤ) + 1 ≠ (tangents.length : ℤ) := by omega
    rcases Nat.lt_or_ge tangents.length 2 with h2 | h2
    · have h1T : ¬ (1 < tangents.length) := by omega
      have h2T : ¬ (2 ≤ tangents.length) := by omega
      simp only [curveHermite, if_neg hg, if_pos hq, if_neg h1T, if_neg h2T]
      simp [Cmd.kind]
    · have h1T : 1 < tangents.length := by omega
      have h2T : 2 ≤ tangents.length := by omega
      simp only [curveHermite, if_neg hg, if_pos hq, if_pos h1T, if_pos h2T]
      simp [hermSLoop_kinds, Cmd.kind]

/-- C6 witness: 4 points with 4 tangents (full mode) and with 2 tangents
(quad mode). -/
theorem curveHermite_shape_witness :
    (curveHermite [⟨0, 0⟩, ⟨1, 1⟩, ⟨2, 0⟩, ⟨3, 1⟩]
        [⟨1, 0⟩, ⟨1, 0⟩, ⟨1, 0⟩, ⟨1, 0⟩] 0 3).map Cmd.kind
      = CmdKind.cubic :: List.replicate 2 CmdKind.smooth
    ∧ (curveHermite [⟨0, 0⟩, ⟨1, 1⟩, ⟨2, 0⟩, ⟨3, 1⟩] [⟨1, 0⟩, ⟨1, 0⟩] 0 3).map Cmd.kind
      = CmdKind.quad
          :: ((if 2 ≤ 2 then CmdKind.cubic :: List.replicate 0 CmdKind.smooth else [])
              ++ [CmdKind.quad]) :=
  ⟨(curveHermite_shape [⟨0, 0⟩, ⟨1, 1⟩, ⟨2, 0⟩, ⟨3, 1⟩]
      [⟨1, 0⟩, ⟨1, 0⟩, ⟨1, 0⟩, ⟨1, 0⟩] 0 3).1 (by decide) (by decide),
   (curveHermite_shape [⟨0, 0⟩, ⟨1, 1⟩, ⟨2, 0⟩, ⟨3, 1⟩]
      [⟨1, 0⟩, ⟨1, 0⟩] 0 3).2 (by decide) (by decide)⟩

/-! ## C5: `curveBasis` equals the padded sliding-window reference -/

/-- `sliceP` unfolding. -/
lemma sliceP_split2 (points : List Pt) (i m : ℕ) :
    sliceP points i (m + 1 + 2)
      = getP points i :: getP points (i + 1) :: sliceP points (i + 2) (m + 1) := rfl

/-- Peeling the first window off a list with at least four elements. -/
lemma flat_w4_cons (a b c d : Pt) (rest : List Pt) :
    (windows4 (a :: b :: c :: d :: rest)).flatMap
        (fun w => pathBasis w.1 w.2.1 w.2.2.1 w.2.2.2)
      = pathBasis a b c d
          ++ (windows4 (b :: c :: d :: rest)).flatMap
               (fun w => pathBasis w.1 w.2.1 w.2.2.1 w.2.2.2) := by
  simp [windows4]

/-- The third component of the final window of the `curveBasis` loop is the
last visited point. -/
lemma curveBasisLoop_third (points : List Pt) :
    ∀ n i p1 p2 p3,
      (curveBasisLoop points p1 p2 p3 i (n + 1)).2.2.2 = getP points (i + n) := by
  intro n
  induction n with
  | zero => intro i p1 p2 p3; simp [curveBasisLoop]
  | succ n ih =>
    intro i p1 p2 p3
    show (curveBasisLoop points p2 p3 (getP points i) (i + 1) (n + 1)).2.2.2
      = getP points (i + (n + 1))
    rw [ih]
    congr 1
    omega

/-- The `curveBasis` loop followed by the two trailing conversions equals
the window sweep over the slice extended by the duplicated last window
point. -/
lemma loopWithTail (points : List Pt) :
    ∀ n p1 p2 p3 i,
      (curveBasisLoop points p1 p2 p3 i n).1
          ++ pathBasis (curveBasisLoop points p1 p2 p3 i n).2.1
               (curveBasisLoop points p1 p2 p3 i n).2.2.1
               (curveBasisLoop points p1 p2 p3 i n).2.2.2
               (curveBasisLoop points p1 p2 p3 i n).2.2.2
          ++ pathBasis (curveBasisLoop points p1 p2 p3 i n).2.2.1
               (curveBasisLoop points p1 p2 p3 i n).2.2.2
               (curveBasisLoop points p1 p2 p3 i n).2.2.2
               (curveBasisLoop points p1 p2 p3 i n).2.2.2
        = (windows4 (p1 :: p2 :: p3
              :: (sliceP points i n
                  ++ [(curveBasisLoop points p1 p2 p3 i n).2.2.2,
                      (curveBasisLoop points p1 p2 p3 i n).2.2.2]))).flatMap
            (fun w => pathBasis w.1 w.2.1 w.2.2.1 w.2.2.2) := by
  intro n
  induction n with
  | zero =>
    intro p1 p2 p3 i
    simp [curveBasisLoop, sliceP, windows4]
  | succ n ih =>
    intro p1 p2 p3 i
    have ih2 := ih p2 p3 (getP points i) (i + 1)
    simp only [List.append_assoc] at ih2
    simp only [curveBasisLoop, sliceP, List.append_assoc, List.cons_append]
    rw [flat_w4_cons]
    rw [ih2]

/-- Each window contributes exactly one command. -/
lemma flat_w4_length :
    ∀ ws : List (Pt × Pt × Pt × Pt),
      ((ws.flatMap (fun w => pathBasis w.1 w.2.1 w.2.2.1 w.2.2.2)).length) = ws.length := by
  intro ws
  induction ws with
  | nil => simp
  | cons w ws ih =>
    simp only [List.flatMap_cons, List.length_append, ih]
    simp [pathBasis]
    omega

/-- A list with three extra points at the front has one window per element
of its tail. -/
lemma windows4_cons3_length :
    ∀ (zs : List Pt) a b c, (windows4 (a :: b :: c :: zs)).length = zs.length := by
  intro zs
  induction zs with
  | nil => intro a b c; simp [windows4]
  | cons z zs ih => intro a b c; simp [windows4, ih]

/-- The length of a `sliceP`. -/
lemma sliceP_length (points : List Pt) : ∀ n i, (sliceP points i n).length = n := by
  intro n
  induction n with
  | zero => intro i; simp [sliceP]
  | succ n ih => intro i; simp [sliceP, ih]

/-- C5: for a range of length `L ≥ 3`, `curveBasis` equals the reference
definition (duplicate the first point twice at the start and the last point
twice at the end, slide a 4-point window, one conversion per window), and
hence consists of exactly `L + 1` cubic commands. -/
theorem curveBasis_refines (points : List Pt) (f t : ℕ) (h : f + 2 ≤ t) :
    curveBasis points f t = basisSplineRef points f t
      ∧ (curveBasis points f t).length = (t - f + 1) + 1
      ∧ ∀ cmd ∈ curveBasis points f t, cmd.kind = CmdKind.cubic := by
  obtain ⟨n, hn⟩ : ∃ n, t = f + (n + 2) := ⟨t - f - 2, by omega⟩
  subst hn
  have hng : ¬ (((f + (n + 2) : ℕ) : ℤ) - (f : ℤ) + 1 ≤ 2) := by omega
  have e1 : f + (n + 2) - f - 1 = n + 1 := by omega
  have e2 : f + (n + 2) - f + 1 = n + 1 + 2 := by omega
  have hC : (curveBasisLoop points (getP points f) (getP points f)
        (getP points (f + 1)) (f + 2) (n + 1)).2.2.2 = getP points (f + (n + 2)) := by
    rw [curveBasisLoop_third]
    congr 1
    omega
  have lhs_eq : curveBasis points f (f + (n + 2))
      = (windows4 (getP points f :: getP points f :: getP points f
            :: getP points (f + 1)
            :: (sliceP points (f + 2) (n + 1)
                ++ [getP points (f + (n + 2)), getP points (f + (n + 2))]))).flatMap
          (fun w => pathBasis w.1 w.2.1 w.2.2.1 w.2.2.2) := by
    simp only [curveBasis, if_neg hng, e1]
    rw [← hC, flat_w4_cons, ← loopWithTail points (n + 1)]
    simp [List.append_assoc]
  have rhs_eq : basisSplineRef points f (f + (n + 2))
      = (windows4 (getP points f :: getP points f :: getP points f
            :: getP points (f + 1)
            :: (sliceP points (f + 2) (n + 1)
                ++ [getP points (f + (n + 2)), getP points (f + (n + 2))]))).flatMap
          (fun w => pathBasis w.1 w.2.1 w.2.2.1 w.2.2.2) := by
    simp only [basisSplineRef, e2]
    rw [sliceP_split2 points f n]
    simp [List.append_assoc]
  refine ⟨lhs_eq.trans rhs_eq.symm, ?_, ?_⟩
  · rw [lhs_eq, flat_w4_length, windows4_cons3_length]
    simp [sliceP_length]
  · intro cmd hcmd
    rw [lhs_eq] at hcmd
    simp only [List.mem_flatMap] at hcmd
    obtain ⟨w, _, hcw⟩ := hcmd
    simp [pathBasis] at hcw
    subst hcw
    rfl

/-- C5 witness: three concrete points, full range. -/
theorem curveBasis_refines_witness :
    curveBasis [⟨0, 0⟩, ⟨1, 1⟩, ⟨2, 0⟩] 0 2 = basisSplineRef [⟨0, 0⟩, ⟨1, 1⟩, ⟨2, 0⟩] 0 2
      ∧ (curveBasis [⟨0, 0⟩, ⟨1, 1⟩, ⟨2, 0⟩] 0 2).length = 4
      ∧ ∀ cmd ∈ curveBasis [⟨0, 0⟩, ⟨1, 1⟩, ⟨2, 0⟩] 0 2, cmd.kind = CmdKind.cubic :=
  curveBasis_refines [⟨0, 0⟩, ⟨1, 1⟩, ⟨2, 0⟩] 0 2 (by decide)

/-! ## C3, C10: monotone tangents -/

/-- Under nondecreasing data with increasing abscissas, every secant slope
is nonnegative. -/
lemma secant_nonneg (points : List Pt) (f t : ℕ)
    (hx : ∀ j, f ≤ j → j < t → (getP points j).left < (getP points (j + 1)).left)
    (hy : ∀ j, f ≤ j → j < t → (getP points j).top ≤ (getP points (j + 1)).top)
    (k : ℕ) (hk : k < t - f) : 0 ≤ secant points f k := by
  simp only [secant]
  split
  · exact le_refl 0
  · have h1 : (getP points (f + k)).left < (getP points (f + k + 1)).left :=
      hx (f + k) (by omega) (by omega)
    have h2 : (getP points (f + k)).top ≤ (getP points (f + k + 1)).top :=
      hy (f + k) (by omega) (by omega)
    exact div_nonneg (by linarith) (by linarith)

/-- A flat pair of adjacent data values gives a zero secant slope. -/
lemma secant_eq_zero_of_flat (points : List Pt) (f k : ℕ)
    (h : (getP points (f + k)).top = (getP points (f + k + 1)).top) :
    secant points f k = 0 := by
  simp only [secant]
  split
  · rfl
  · rw [← h]
    simp

/-- The initial slopes (secant averages) are nonnegative on monotone
data. -/
lemma initM_nonneg (points : List Pt) (f t : ℕ)
    (hx : ∀ j, f ≤ j → j < t → (getP points j).left < (getP points (j + 1)).left)
    (hy : ∀ j, f ≤ j → j < t → (getP points j).top ≤ (getP points (j + 1)).top)
    (hft : f < t) (k : ℕ) (hk : k ≤ t - f) : 0 ≤ initM points f t k := by
  simp only [initM]
  split
  · exact secant_nonneg points f t hx hy 0 (by omega)
  · rename_i h0
    split
    · rename_i h1
      have ha := secant_nonneg points f t hx hy (k - 1) (by omega)
      have hb := secant_nonneg points f t hx hy k (by omega)
      have : (0 : ℝ) ≤ secant points f (k - 1) + secant points f k := by linarith
      linarith
    · exact secant_nonneg points f t hx hy (k - 1) (by omega)

/-- The horizontal extents are positive for strictly increasing
abscissas. -/
lemma initDx_pos (points : List Pt) (f t : ℕ)
    (hx : ∀ j, f ≤ j → j < t → (getP points j).left < (getP points (j + 1)).left)
    (hft : f < t) (k : ℕ) (hk : k ≤ t - f) : 0 < initDx points f t k := by
  simp only [initDx]
  split
  · have := hx f (le_refl f) (by omega)
    linarith
  · rename_i h0
    split
    · rename_i h1
      have ha := hx (f + k - 1) (by omega) (by omega)
      have hb := hx (f + k) (by omega) (by omega)
      have e : f + k - 1 + 1 = f + k := by omega
      rw [e] at ha
      have : (getP points (f + k - 1)).left < (getP points (f + k + 1)).left := by linarith
      linarith
    · rename_i h1
      have ha := hx (f + k - 1) (by omega) (by omega)
      have e : f + k - 1 + 1 = f + k := by omega
      rw [e] at ha
      linarith

/-- A pointwise property preserved by every step is preserved by the
fold. -/
lemma foldl_preserve {α : Type} (P : (ℕ → ℝ) → Prop) (step : (ℕ → ℝ) → α → (ℕ → ℝ))
    (hstep : ∀ m a, P m → P (step m a)) :
    ∀ (l : List α) (m : ℕ → ℝ), P m → P (l.foldl step m) := by
  intro l
  induction l with
  | nil => intro m hm; exact hm
  | cons x xs ih => intro m hm; exact ih _ (hstep m x hm)

/-- The step-3 update keeps bounded slopes nonnegative (it only writes
zeros). -/
lemma step3Step_nonneg (points : List Pt) (f B : ℕ) (m : ℕ → ℝ) (k : ℕ)
    (hm : ∀ i, i ≤ B → 0 ≤ m i) : ∀ i, i ≤ B → 0 ≤ step3Step points f m k i := by
  intro i hi
  simp only [step3Step]
  split
  · rcases eq_or_ne i (k + 1) with h1 | h1
    · subst h1
      rw [Function.update_same]
    · rw [Function.update_noteq h1]
      rcases eq_or_ne i k with h2 | h2
      · subst h2
        rw [Function.update_same]
      · rw [Function.update_noteq h2]
        exact hm i hi
  · exact hm i hi

/-- The step-3 update preserves zero slopes. -/
lemma step3Step_zero (points : List Pt) (f : ℕ) (m : ℕ → ℝ) (k i : ℕ)
    (h : m i = 0) : step3Step points f m k i = 0 := by
  simp only [step3Step]
  split
  · rcases eq_or_ne i (k + 1) with h1 | h1
    · subst h1
      rw [Function.update_same]
    · rw [Function.update_noteq h1]
      rcases eq_or_ne i k with h2 | h2
      · subst h2
        rw [Function.update_same]
      · rw [Function.update_noteq h2]
        exact h
  · exact h

/-- After processing the first `N` indices of step 3, every index `k < N`
with a zero secant has both adjacent slopes zeroed. -/
lemma foldl_step3_zero (points : List Pt) (f : ℕ) (m0 : ℕ → ℝ) :
    ∀ N k, k < N → secant points f k = 0 →
      ((List.range N).foldl (step3Step points f) m0) k = 0
        ∧ ((List.range N).foldl (step3Step points f) m0) (k + 1) = 0 := by
  intro N
  induction N with
  | zero => intro k hk _; exact absurd hk (Nat.not_lt_zero k)
  | succ N ih =>
    intro k hk h0
    rw [List.range_succ, List.foldl_append]
    simp only [List.foldl_cons, List.foldl_nil]
    rcases Nat.lt_or_ge k N with hkN | hkN
    · obtain ⟨ha, hb⟩ := ih k hkN h0
      exact ⟨step3Step_zero points f _ N k ha, step3Step_zero points f _ N (k + 1) hb⟩
    · have hkN' : k = N := by omega
      subst hkN'
      constructor
      · simp only [step3Step, if_pos h0]
        rw [Function.update_noteq (by omega : k ≠ k + 1), Function.update_same]
      · simp only [step3Step, if_pos h0]
        rw [Function.update_same]

/-- The rescaled slope `tk * (x / d) * d` keeps its sign. -/
lemma rescale_nonneg (x d s : ℝ) (hx : 0 ≤ x) :
    0 ≤ 3 / Real.sqrt s * (x / d) * d := by
  rcases eq_or_ne d 0 with h | h
  · simp [h]
  · rw [mul_assoc, div_mul_cancel₀ _ h]
    exact mul_nonneg (div_nonneg (by norm_num) (Real.sqrt_nonneg s)) hx

/-- When `s > 9`, the rescaling factor `3 / sqrt s` has magnitude at most 1,
so the rescaled slope never grows in magnitude. -/
lemma rescale_abs_le (x d s : ℝ) (hs : 9 < s) :
    |3 / Real.sqrt s * (x / d) * d| ≤ |x| := by
  rcases eq_or_ne d 0 with h | h
  · simp [h]
  · rw [mul_assoc, div_mul_cancel₀ _ h, abs_mul]
    have h3 : (3 : ℝ) ≤ Real.sqrt s := by
      rw [show (3 : ℝ) = Real.sqrt 9 by
        rw [show (9 : ℝ) = 3 ^ 2 by norm_num, Real.sqrt_sq (by norm_num)]]
      exact Real.sqrt_le_sqrt (le_of_lt hs)
    have htk : |3 / Real.sqrt s| ≤ 1 := by
      rw [abs_of_nonneg (div_nonneg (by norm_num) (Real.sqrt_nonneg s))]
      rw [div_le_one (by linarith)]
      exact h3
    calc |3 / Real.sqrt s| * |x| ≤ 1 * |x| :=
          mul_le_mul_of_nonneg_right htk (abs_nonneg x)
      _ = |x| := one_mul _

/-- The step-4/5 update keeps bounded slopes nonnegative. -/
lemma step45Step_nonneg (points : List Pt) (f B : ℕ) (m : ℕ → ℝ) (k : ℕ)
    (hm : ∀ i, i ≤ B → 0 ≤ m i) : ∀ i, i ≤ B → 0 ≤ step45Step points f m k i := by
  intro i hi
  simp only [step45Step]
  split
  · exact hm i hi
  · split
    · rcases eq_or_ne i (k + 1) with h1 | h1
      · subst h1
        rw [Function.update_same]
        exact rescale_nonneg _ _ _ (hm (k + 1) hi)
      · rw [Function.update_noteq h1]
        rcases eq_or_ne i k with h2 | h2
        · subst h2
          rw [Function.update_same]
          exact rescale_nonneg _ _ _ (hm i hi)
        · rw [Function.update_noteq h2]
          exact hm i hi
    · exact hm i hi

/-- The step-4/5 update preserves zero slopes: a zero slope fails the
`1e-5` magnitude guard, so its pair is skipped and it is never written. -/
lemma step45Step_zero (points : List Pt) (f : ℕ) (m : ℕ → ℝ) (k i : ℕ)
    (h : m i = 0) : step45Step points f m k i = 0 := by
  simp only [step45Step]
  split
  · exact h
  · rename_i hg
    push_neg at hg
    split
    · rcases eq_or_ne i (k + 1) with h1 | h1
      · exfalso
        have := hg.2
        rw [← h1, h] at this
        norm_num at this
      · rw [Function.update_noteq h1]
        rcases eq_or_ne i k with h2 | h2
        · exfalso
          have := hg.1
          rw [← h2, h] at this
          norm_num at this
        · rw [Function.update_noteq h2]
          exact h
    · exact h

/-- The step-4/5 update never increases the magnitude of any slope. -/
lemma step45Step_abs_le (points : List Pt) (f : ℕ) (m : ℕ → ℝ) (k i : ℕ) :
    |step45Step points f m k i| ≤ |m i| := by
  simp only [step45Step]
  split
  · exact le_refl _
  · split
    · rename_i hg hs
      rcases eq_or_ne i (k + 1) with h1 | h1
      · subst h1
        rw [Function.update_same]
        exact rescale_abs_le _ _ _ hs
      · rw [Function.update_noteq h1]
        rcases eq_or_ne i k with h2 | h2
        · subst h2
          rw [Function.update_same]
          exact rescale_abs_le _ _ _ hs
        · rw [Function.update_noteq h2]
    · exact le_refl _

/-- Unfolding one iteration of steps 4-5. -/
lemma step45Aux_succ (points : List Pt) (f t n : ℕ) :
    step45Aux points f t (n + 1) = step45Step points f (step45Aux points f t n) n := by
  simp only [step45Aux, List.range_succ, List.foldl_append, List.foldl_cons, List.foldl_nil]

/-- A slope zeroed by step 3 stays zero through every iteration of
steps 4-5. -/
lemma step45Aux_zero (points : List Pt) (f t i : ℕ)
    (h : step3 points f t i = 0) : ∀ n, step45Aux points f t n i = 0 := by
  intro n
  simp only [step45Aux]
  exact foldl_preserve (fun m => m i = 0) (step45Step points f)
    (fun m a hm => step45Step_zero points f m a i hm) (List.range n) (step3 points f t) h

/-- C10: wherever a secant slope `d[k]` is zero, step 3 zeroes both
adjacent slopes, steps 4-5 keep them zero forever and never increase any
slope's magnitude, and the `1e-5` magnitude guard skips iteration `k` —
so the divisions `m[k]/d[k]` and `m[k+1]/d[k]` are never executed with a
zero `d[k]`. -/
theorem monotone_no_div_by_zero (points : List Pt) (f t k : ℕ)
    (hk : k < t - f) (h0 : secant points f k = 0) :
    step3 points f t k = 0 ∧ step3 points f t (k + 1) = 0
      ∧ (∀ n, step45Aux points f t n k = 0 ∧ step45Aux points f t n (k + 1) = 0)
      ∧ (|step45Aux points f t k k| < 1e-5 ∨ |step45Aux points f t k (k + 1)| < 1e-5)
      ∧ ∀ n i, |step45Aux points f t (n + 1) i| ≤ |step45Aux points f t n i| := by
  have h3 := foldl_step3_zero points f (initM points f t) (t - f) k hk h0
  have h3a : step3 points f t k = 0 := h3.1
  have h3b : step3 points f t (k + 1) = 0 := h3.2
  refine ⟨h3a, h3b, ?_, ?_, ?_⟩
  · intro n
    exact ⟨step45Aux_zero points f t k h3a n, step45Aux_zero points f t (k + 1) h3b n⟩
  · left
    rw [step45Aux_zero points f t k h3a k]
    simp
    norm_num
  · intro n i
    rw [step45Aux_succ]
    exact step45Step_abs_le points f _ n i

/-- C10 witness: a flat first pair in a three-point sequence. -/
theorem monotone_no_div_by_zero_witness :
    step3 [⟨0, 0⟩, ⟨1, 0⟩, ⟨2, 1⟩] 0 2 0 = 0
      ∧ step3 [⟨0, 0⟩, ⟨1, 0⟩, ⟨2, 1⟩] 0 2 1 = 0
      ∧ (∀ n, step45Aux [⟨0, 0⟩, ⟨1, 0⟩, ⟨2, 1⟩] 0 2 n 0 = 0
          ∧ step45Aux [⟨0, 0⟩, ⟨1, 0⟩, ⟨2, 1⟩] 0 2 n 1 = 0)
      ∧ (|step45Aux [⟨0, 0⟩, ⟨1, 0⟩, ⟨2, 1⟩] 0 2 0 0| < 1e-5
          ∨ |step45Aux [⟨0, 0⟩, ⟨1, 0⟩, ⟨2, 1⟩] 0 2 0 1| < 1e-5)
      ∧ ∀ n i, |step45Aux [⟨0, 0⟩, ⟨1, 0⟩, ⟨2, 1⟩] 0 2 (n + 1) i|
          ≤ |step45Aux [⟨0, 0⟩, ⟨1, 0⟩, ⟨2, 1⟩] 0 2 n i| :=
  monotone_no_div_by_zero [⟨0, 0⟩, ⟨1, 0⟩, ⟨2, 1⟩] 0 2 0 (by decide)
    (by
      simp only [secant, getP]
      norm_num)

/-- After step 3 every slope in range is still nonnegative on monotone
data. -/
lemma step3_nonneg (points : List Pt) (f t : ℕ)
    (hx : ∀ j, f ≤ j → j < t → (getP points j).left < (getP points (j + 1)).left)
    (hy : ∀ j, f ≤ j → j < t → (getP points j).top ≤ (getP points (j + 1)).top)
    (hft : f < t) : ∀ i, i ≤ t - f → 0 ≤ step3 points f t i := by
  simp only [step3]
  exact foldl_preserve (fun m => ∀ i, i ≤ t - f → 0 ≤ m i) (step3Step points f)
    (fun m a hm => step3Step_nonneg points f (t - f) m a hm)
    (List.range (t - f)) (initM points f t)
    (fun i hi => initM_nonneg points f t hx hy hft i hi)

/-- After steps 4-5 every slope in range is still nonnegative on monotone
data. -/
lemma step45_nonneg (points : List Pt) (f t : ℕ)
    (hx : ∀ j, f ≤ j → j < t → (getP points j).left < (getP points (j + 1)).left)
    (hy : ∀ j, f ≤ j → j < t → (getP points j).top ≤ (getP points (j + 1)).top)
    (hft : f < t) : ∀ i, i ≤ t - f → 0 ≤ step45 points f t i := by
  simp only [step45, step45Aux]
  exact foldl_preserve (fun m => ∀ i, i ≤ t - f → 0 ≤ m i) (step45Step points f)
    (fun m a hm => step45Step_nonneg points f (t - f) m a hm)
    (List.range (t - f)) (step3 points f t)
    (step3_nonneg points f t hx hy hft)

/-- The `i`-th monotone tangent, written with the final slope and
extent. -/
lemma monotoneTangents_getD (points : List Pt) (f t : ℕ) (i : ℕ) (hi : i ≤ t - f) :
    (monotoneTangents points f t).getD i ⟨0, 0⟩
      = ⟨initDx points f t i / 3 / (1 + step45 points f t i * step45 points f t i),
         step45 points f t i * initDx points f t i / 3
           / (1 + step45 points f t i * step45 points f t i)⟩ := by
  have hi' : i < t - f + 1 := by omega
  simp [monotoneTangents, List.getD_eq_getElem?_getD, hi']

/-- C3: on a range whose abscissas strictly increase and whose ordinates
never decrease (all secants nonnegative), every monotone tangent has
nonnegative y-component; and at a flat pair of adjacent points both
endpoint tangents have y-component exactly 0 while keeping nonzero
x-extent. -/
theorem monotoneTangents_monotone (points : List Pt) (f t : ℕ) (hft : f < t)
    (hx : ∀ j, f ≤ j → j < t → (getP points j).left < (getP points (j + 1)).left)
    (hy : ∀ j, f ≤ j → j < t → (getP points j).top ≤ (getP points (j + 1)).top) :
    (∀ i, i ≤ t - f → 0 ≤ ((monotoneTangents points f t).getD i ⟨0, 0⟩).y)
      ∧ ∀ k, f ≤ k → k < t → (getP points k).top = (getP points (k + 1)).top →
          ((monotoneTangents points f t).getD (k - f) ⟨0, 0⟩).y = 0
            ∧ ((monotoneTangents points f t).getD (k - f) ⟨0, 0⟩).x ≠ 0
            ∧ ((monotoneTangents points f t).getD (k - f + 1) ⟨0, 0⟩).y = 0
            ∧ ((monotoneTangents points f t).getD (k - f + 1) ⟨0, 0⟩).x ≠ 0 := by
  constructor
  · intro i hi
    rw [monotoneTangents_getD points f t i hi]
    dsimp only
    have h1 : 0 ≤ step45 points f t i := step45_nonneg points f t hx hy hft i hi
    have h2 : 0 < initDx points f t i := initDx_pos points f t hx hft i hi
    have h3 : (0 : ℝ) < 1 + step45 points f t i * step45 points f t i := by positivity
    apply div_nonneg _ (le_of_lt h3)
    apply div_nonneg _ (by norm_num : (0 : ℝ) ≤ 3)
    exact mul_nonneg h1 (le_of_lt h2)
  · intro k hfk hkt hflat
    have hsec : secant points f (k - f) = 0 := by
      apply secant_eq_zero_of_flat
      have e : f + (k - f) = k := by omega
      rw [e]
      exact hflat
    have hkr : k - f < t - f := by omega
    have h3z := foldl_step3_zero points f (initM points f t) (t - f) (k - f) hkr hsec
    have hz1 : step45 points f t (k - f) = 0 :=
      step45Aux_zero points f t (k - f) h3z.1 (t - f)
    have hz2 : step45 points f t (k - f + 1) = 0 :=
      step45Aux_zero points f t (k - f + 1) h3z.2 (t - f)
    have hd1 : 0 < initDx points f t (k - f) :=
      initDx_pos points f t hx hft (k - f) (by omega)
    have hd2 : 0 < initDx points f t (k - f + 1) :=
      initDx_pos points f t hx hft (k - f + 1) (by omega)
    refine ⟨?_, ?_, ?_, ?_⟩
    · rw [monotoneTangents_getD points f t (k - f) (by omega)]
      dsimp only
      rw [hz1]
      simp
    · rw [monotoneTangents_getD points f t (k - f) (by omega)]
      dsimp only
      rw [hz1]
      have hpos : (0 : ℝ) < initDx points f t (k - f) / 3 / (1 + 0 * 0) := by
        rw [show (1 : ℝ) + 0 * 0 = 1 by ring, div_one]
        exact div_pos hd1 (by norm_num)
      exact ne_of_gt hpos
    · rw [monotoneTangents_getD points f t (k - f + 1) (by omega)]
      dsimp only
      rw [hz2]
      simp
    · rw [monotoneTangents_getD points f t (k - f + 1) (by omega)]
      dsimp only
      rw [hz2]
      have hpos : (0 : ℝ) < initDx points f t (k - f + 1) / 3 / (1 + 0 * 0) := by
        rw [show (1 : ℝ) + 0 * 0 = 1 by ring, div_one]
        exact div_pos hd2 (by norm_num)
      exact ne_of_gt hpos

/-- C3 witness: the spec's example `[(0,0),(1,1),(2,1),(3,5)]`, which
contains the flat pair at indices 1 and 2. -/
theorem monotoneTangents_monotone_witness :
    (∀ i, i ≤ 3 →
        0 ≤ ((monotoneTangents [⟨0, 0⟩, ⟨1, 1⟩, ⟨2, 1⟩, ⟨3, 5⟩] 0 3).getD i ⟨0, 0⟩).y)
      ∧ ∀ k, 0 ≤ k → k < 3 →
          (getP [⟨0, 0⟩, ⟨1, 1⟩, ⟨2, 1⟩, ⟨3, 5⟩] k).top
            = (getP [⟨0, 0⟩, ⟨1, 1⟩, ⟨2, 1⟩, ⟨3, 5⟩] (k + 1)).top →
          ((monotoneTangents [⟨0, 0⟩, ⟨1, 1⟩, ⟨2, 1⟩, ⟨3, 5⟩] 0 3).getD (k - 0) ⟨0, 0⟩).y = 0
            ∧ ((monotoneTangents [⟨0, 0⟩, ⟨1, 1⟩, ⟨2, 1⟩, ⟨3, 5⟩] 0 3).getD (k - 0) ⟨0, 0⟩).x ≠ 0
            ∧ ((monotoneTangents [⟨0, 0⟩, ⟨1, 1⟩, ⟨2, 1⟩, ⟨3, 5⟩] 0 3).getD (k - 0 + 1) ⟨0, 0⟩).y = 0
            ∧ ((monotoneTangents [⟨0, 0⟩, ⟨1, 1⟩, ⟨2, 1⟩, ⟨3, 5⟩] 0 3).getD (k - 0 + 1) ⟨0, 0⟩).x ≠ 0 :=
  monotoneTangents_monotone [⟨0, 0⟩, ⟨1, 1⟩, ⟨2, 1⟩, ⟨3, 5⟩] 0 3 (by decide)
    (by
      intro j hj1 hj2
      interval_cases j <;> norm_num [getP])
    (by
      intro j hj1 hj2
      interval_cases j <;> norm_num [getP])

end

